import Mathlib

/-!
Shallow embedding of `dpcontracts.py` (the `contracts` repository): the
argument binder `build_call`, the condition wrapper produced by `condition`
(used by `require` / `ensure` / `transform`), and the invariant propagator
`invariant`, together with theorems about the claims on this code.

Python values relevant to the binder are modelled by `Val`; Python `dict`s
(which preserve insertion order, with `update` replacing values in place and
appending new keys) are modelled by association lists with the operations
`dictSet` / `dictUpdate`.
-/

namespace DPContracts

/-- A Python value as far as the binder is concerned: integers, strings,
and tuples (used for the captured variadic tail). -/
inductive Val : Type where
  | int : Int → Val
  | str : String → Val
  | tup : List Val → Val
  deriving Repr

/-- A finished argument record: the `namedtuple` built by `build_call`,
kept as an insertion-ordered name/value list. -/
abbrev Record := List (String × Val)

/-- A record under construction: entries still equal to the `nonce`
sentinel of `build_call` are `none`. -/
abbrev PRecord := List (String × Option Val)

/-- `d[k] = v` on an insertion-ordered dict: replace the value in place if
the key exists, append a fresh entry otherwise. -/
def dictSet (d : PRecord) (k : String) (v : Option Val) : PRecord :=
  if d.any (fun e => e.1 == k) then
    d.map (fun e => if e.1 == k then (k, v) else e)
  else
    d ++ [(k, v)]

/-- `d.update(us)` on an insertion-ordered dict, applied pairwise. -/
def dictUpdate (d : PRecord) (us : List (String × Option Val)) : PRecord :=
  us.foldl (fun acc e => dictSet acc e.1 e.2) d

/-- The relevant fields of `inspect.getfullargspec` for the original
(unwrapped) callable: positional-or-keyword parameter names in order, the
variadic positional name if any, the defaults (aligned with the tail of
`named`), the keyword-only names, and the keyword-only defaults. -/
structure ArgSpec where
  named : List String
  vargs : Option String
  defs : List Val
  kwonly : List String
  kwonlydefs : List (String × Val)

/-- The error raised by `build_call` when a parameter is still bound to the
nonce after all overlays:
`TypeError("%s missing required positional argument: '%s'")`. -/
inductive BindError : Type where
  | missingArg (func : String) (param : String)
  deriving DecidableEq, Repr

/-- The `actual` dictionary of `build_call` after all overlays: nonce
entries for each named parameter, then keyword-only defaults, then
positional defaults (zipped from the right), then positional arguments,
then the captured variadic tail, then keyword arguments. -/
def buildActual (spec : ArgSpec) (args : List Val) (kwargs : Record) : PRecord :=
  let a0 : PRecord := spec.named.map (fun n => (n, none))
  let a1 := dictUpdate a0 (spec.kwonlydefs.map (fun e => (e.1, some e.2)))
  let a2 := dictUpdate a1
    ((spec.named.reverse.zip spec.defs.reverse).map (fun e => (e.1, some e.2)))
  let a3 := dictUpdate a2 ((spec.named.zip args).map (fun e => (e.1, some e.2)))
  let a4 :=
    match spec.vargs with
    | some v => dictSet a3 v (some (Val.tup (args.drop spec.named.length)))
    | none => a3
  dictUpdate a4 (kwargs.map (fun e => (e.1, some e.2)))

/-- `build_call(func, *args, **kwargs)`: build the overlay dictionary, scan
it in insertion order for a surviving nonce (raising `TypeError` at the
first one), and otherwise return the record. `fname` is `func.__name__` of
the original callable reached through `get_wrapped_func`. -/
def build_call (spec : ArgSpec) (fname : String) (args : List Val)
    (kwargs : Record) : Except BindError Record :=
  let actual := buildActual spec args kwargs
  match actual.find? (fun e => e.2.isNone) with
  | some e => .error (.missingArg fname e.1)
  | none => .ok (actual.filterMap (fun e => e.2.map (fun v => (e.1, v))))

/-- One decorator layer around a callable, as produced by `condition` with
`instance=False` (a `require` precondition or an `ensure` postcondition) or
by `transform`.  The label on a transform layer only identifies it in the
evaluation trace. -/
inductive Layer : Type where
  | pre (desc : String) (pred : Record → Bool)
  | post (desc : String) (pred : Record → Val → Bool)
  | xf (label : String) (t : Record → Record)

/-- Observable events of one call: a condition predicate being evaluated
(`assert predicate(...)`), a transformer being invoked, and the innermost
original callable running. -/
inductive TraceEntry : Type where
  | pred (desc : String)
  | xform (label : String)
  | body
  deriving DecidableEq, Repr

/-- Errors escaping a contracted call: the binder's `TypeError`, or an
`AssertionError(description)` from a failed condition. -/
inductive CError : Type where
  | bind (e : BindError)
  | violation (desc : String)
  deriving DecidableEq, Repr

/-- Execution of the chain of `inner` wrappers built by stacked decorators,
outermost layer first.  Each `inner` first rebinds the arguments against
the original callable's spec (every layer reaches the original through
`__contract_wrapped_func__`), asserts its precondition if it has one, calls
the next layer with the same `*args, **kwargs` (a transform layer instead
calls it with the rewritten record as keyword arguments only), and asserts
its postcondition on the result.  The innermost call runs the original
body on the bound record; `σ` is the ambient mutable state the body may
update.  Returns the evaluation trace, the final state, and the outcome. -/
def runChain {σ : Type} (spec : ArgSpec) (fname : String) :
    List Layer → (Record → σ → σ × Val) → List Val → Record → σ →
    List TraceEntry × σ × Except CError Val
  | [], body, args, kwargs, s =>
    match build_call spec fname args kwargs with
    | .error e => ([], s, .error (.bind e))
    | .ok r =>
      let q := body r s
      ([.body], q.1, .ok q.2)
  | .pre d p :: rest, body, args, kwargs, s =>
    match build_call spec fname args kwargs with
    | .error e => ([], s, .error (.bind e))
    | .ok r =>
      if p r then
        let q := runChain spec fname rest body args kwargs s
        (.pred d :: q.1, q.2.1, q.2.2)
      else ([.pred d], s, .error (.violation d))
  | .post d p :: rest, body, args, kwargs, s =>
    match build_call spec fname args kwargs with
    | .error e => ([], s, .error (.bind e))
    | .ok r =>
      let q := runChain spec fname rest body args kwargs s
      match q.2.2 with
      | .error e => (q.1, q.2.1, .error e)
      | .ok v =>
        if p r v then (q.1 ++ [.pred d], q.2.1, .ok v)
        else (q.1 ++ [.pred d], q.2.1, .error (.violation d))
  | .xf lbl t :: rest, body, args, kwargs, s =>
    match build_call spec fname args kwargs with
    | .error e => ([], s, .error (.bind e))
    | .ok r =>
      let q := runChain spec fname rest body [] (t r) s
      (.xform lbl :: q.1, q.2.1, q.2.2)

/-- A decorated callable: the stacked layers (outermost first) around the
original body. -/
structure Decorated (σ : Type) where
  layers : List Layer
  body : Record → σ → σ × Val

/-- Run a decorated callable on a concrete call. -/
def runDecorated {σ : Type} (f : Decorated σ) (spec : ArgSpec) (fname : String)
    (args : List Val) (kwargs : Record) (s : σ) :
    List TraceEntry × σ × Except CError Val :=
  runChain spec fname f.layers f.body args kwargs s

/-- The `require` decorator: when contracts are enabled (`__debug__`), add
a precondition layer; when disabled, return the callable unchanged. -/
def require {σ : Type} (debug : Bool) (d : String) (p : Record → Bool)
    (f : Decorated σ) : Decorated σ :=
  if debug then { f with layers := Layer.pre d p :: f.layers } else f

/-- The `ensure` decorator: when enabled, add a postcondition layer; when
disabled, return the callable unchanged. -/
def ensure {σ : Type} (debug : Bool) (d : String) (p : Record → Val → Bool)
    (f : Decorated σ) : Decorated σ :=
  if debug then { f with layers := Layer.post d p :: f.layers } else f

/-- The `transform` decorator: when enabled, add a rewriting layer; when
disabled, return the callable unchanged. -/
def transform {σ : Type} (debug : Bool) (lbl : String) (t : Record → Record)
    (f : Decorated σ) : Decorated σ :=
  if debug then { f with layers := Layer.xf lbl t :: f.layers } else f

/-- Convenience constructor for a precondition layer from a
description/predicate pair. -/
def mkPre (q : String × (Record → Bool)) : Layer :=
  Layer.pre q.1 q.2

/-- What `check(name, func)` inspects about an attribute of the class:
whether `isfunction(func) or ismethod(func)` holds, and whether
`getattr(func, "__self__", None) is c` (a classmethod bound to the class
itself). -/
structure MethodInfo : Type where
  isFuncOrMethod : Bool
  boundToClass : Bool
  deriving DecidableEq, Repr

/-- The `exceptions` tuple of `check`: dunder names that are wrapped
anyway. -/
def dunderExceptions : List String :=
  ["__getitem__", "__setitem__", "__lt__", "__le__", "__eq__",
   "__ne__", "__gt__", "__ge__", "__init__"]

/-- Python's `str.startswith`, computed on the character list. -/
def strStartsWith (s p : String) : Bool :=
  p.data.isPrefixOf s.data

/-- Python's `str.endswith`, computed on the character list. -/
def strEndsWith (s p : String) : Bool :=
  p.data.isSuffixOf s.data

/-- `name.startswith("__") and name.endswith("__")`. -/
def isDunder (n : String) : Bool :=
  strStartsWith n "__" && strEndsWith n "__"

/-- The `check(name, func)` test of `invariant`: wrap the attribute unless
it is a non-excepted dunder, not a function/method, or bound to the class
itself. -/
def check (name : String) (info : MethodInfo) : Bool :=
  if isDunder name && !(dunderExceptions.contains name) then false
  else if !info.isFuncOrMethod then false
  else if info.boundToClass then false
  else true

/-- One invariant condition wrapped around a method by
`condition(desc, predicate, name != "__init__", True, True)`:
the description, the one-argument predicate over the instance, and
whether the pre-invocation check is performed. -/
structure ICond (σ : Type) : Type where
  desc : String
  pred : σ → Bool
  isPre : Bool

/-- A method as seen on the (possibly already derived) class: the facts
`check` looks at, the invariant layers already wrapped around it
(outermost first), and the underlying body mutating the instance state. -/
structure IMethod (σ : Type) : Type where
  info : MethodInfo
  layers : List (ICond σ)
  body : σ → σ × Val

/-- Wrapping one method with one invariant condition:
`condition(desc, predicate, name != "__init__", True, True)(value)`.
The pre-check is skipped exactly for `__init__`; the resulting attribute
is again a plain function, so `info` is unchanged for later derivations. -/
def wrapInvariant {σ : Type} (d : String) (p : σ → Bool) (name : String)
    (m : IMethod σ) : IMethod σ :=
  { m with layers := ⟨d, p, name != "__init__"⟩ :: m.layers }

/-- The `invariant` decorator's derivation step: build the subclass whose
qualifying attributes (those passing `check`) are wrapped with the given
condition, leaving every other attribute untouched. -/
def deriveInvariant {σ : Type} (d : String) (p : σ → Bool)
    (table : List (String × IMethod σ)) : List (String × IMethod σ) :=
  table.map (fun nm =>
    if check nm.1 nm.2.info then (nm.1, wrapInvariant d p nm.1 nm.2) else nm)

/-- The `invariant` decorator itself, honoring the enabled/disabled mode:
disabled, it returns the class unchanged. -/
def invariant {σ : Type} (debug : Bool) (d : String) (p : σ → Bool)
    (table : List (String × IMethod σ)) : List (String × IMethod σ) :=
  if debug then deriveInvariant d p table else table

/-- Execution of an invariant-wrapped method (layers outermost first).
Each layer is `inner` with `instance=True`: it asserts its predicate on
the instance before the inner call when its pre-flag is set, then asserts
it again on the (possibly mutated) instance after a successful inner
call. -/
def runIMethod {σ : Type} :
    List (ICond σ) → (σ → σ × Val) → σ →
    List TraceEntry × σ × Except CError Val
  | [], body, s =>
    let q := body s
    ([.body], q.1, .ok q.2)
  | c :: rest, body, s =>
    if c.isPre && !(c.pred s) then
      ([.pred c.desc], s, .error (.violation c.desc))
    else
      let preTr := if c.isPre then [TraceEntry.pred c.desc] else []
      let q := runIMethod rest body s
      match q.2.2 with
      | .error e => (preTr ++ q.1, q.2.1, .error e)
      | .ok v =>
        if c.pred q.2.1 then (preTr ++ q.1 ++ [.pred c.desc], q.2.1, .ok v)
        else (preTr ++ q.1 ++ [.pred c.desc], q.2.1, .error (.violation c.desc))

/-- Look a method up on the derived class and invoke it on an instance in
state `s`. -/
def callMethod {σ : Type} (table : List (String × IMethod σ)) (n : String)
    (s : σ) : Option (List TraceEntry × σ × Except CError Val) :=
  (table.find? (fun nm => nm.1 == n)).map
    (fun nm => runIMethod nm.2.layers nm.2.body s)

/-! ### Dictionary lemmas -/

theorem any_fst_iff_mem (d : PRecord) (k : String) :
    d.any (fun e => e.1 == k) = true ↔ k ∈ d.map Prod.fst := by
  simp [List.any_eq_true, List.mem_map, beq_iff_eq]

theorem dictSet_mem_of_ne {d : PRecord} {n : String} {w : Option Val}
    (h : (n, w) ∈ d) {k : String} (hne : n ≠ k) (v : Option Val) :
    (n, w) ∈ dictSet d k v := by
  unfold dictSet
  split
  · refine List.mem_map.2 ⟨(n, w), h, ?_⟩
    simp [hne]
  · exact List.mem_append_left _ h

theorem dictSet_mem_self (d : PRecord) (k : String) (v : Option Val) :
    (k, v) ∈ dictSet d k v := by
  unfold dictSet
  split
  · next hany =>
    obtain ⟨e, he, hk⟩ := List.any_eq_true.1 hany
    refine List.mem_map.2 ⟨e, he, ?_⟩
    simp [hk]
  · exact List.mem_append_right _ (List.mem_singleton.2 rfl)

theorem dictUpdate_mem_of_notMem {d : PRecord} {n : String} {w : Option Val}
    (h : (n, w) ∈ d) (us : List (String × Option Val))
    (hus : n ∉ us.map Prod.fst) : (n, w) ∈ dictUpdate d us := by
  induction us generalizing d with
  | nil => exact h
  | cons u us ih =>
    simp only [List.map_cons, List.mem_cons] at hus
    push_neg at hus
    exact ih (dictSet_mem_of_ne h hus.1 u.2) hus.2

theorem dictUpdate_mem_of_mem_nodup {d : PRecord} {n : String} {w : Option Val}
    {us : List (String × Option Val)} (h : (n, w) ∈ us)
    (hnd : (us.map Prod.fst).Nodup) : (n, w) ∈ dictUpdate d us := by
  induction us generalizing d with
  | nil => cases h
  | cons u us ih =>
    simp only [List.map_cons, List.nodup_cons] at hnd
    rcases List.mem_cons.1 h with h | h
    · subst h
      exact dictUpdate_mem_of_notMem (dictSet_mem_self d n w) us hnd.1
    · exact ih h hnd.2

theorem dictSet_map_fst_of_mem {d : PRecord} {k : String}
    (h : d.any (fun e => e.1 == k) = true) (v : Option Val) :
    (dictSet d k v).map Prod.fst = d.map Prod.fst := by
  unfold dictSet
  rw [if_pos h, List.map_map]
  refine List.map_congr_left (fun e _ => ?_)
  by_cases hek : e.1 = k
  · simp [hek]
  · simp [hek]

theorem dictSet_map_fst (d : PRecord) (k : String) (v : Option Val) :
    (dictSet d k v).map Prod.fst = d.map Prod.fst ∨
    (dictSet d k v).map Prod.fst = d.map Prod.fst ++ [k] := by
  by_cases h : d.any (fun e => e.1 == k) = true
  · exact Or.inl (dictSet_map_fst_of_mem h v)
  · right
    unfold dictSet
    rw [if_neg h]
    simp

theorem dictSet_nodup_keys {d : PRecord} (hnd : (d.map Prod.fst).Nodup)
    (k : String) (v : Option Val) :
    ((dictSet d k v).map Prod.fst).Nodup := by
  by_cases h : d.any (fun e => e.1 == k) = true
  · rw [dictSet_map_fst_of_mem h]; exact hnd
  · unfold dictSet
    rw [if_neg h]
    rw [List.map_append]
    simp only [List.map_cons, List.map_nil]
    refine List.Nodup.append hnd (List.nodup_singleton k) ?_
    intro a ha hb
    rw [List.mem_singleton] at hb
    subst hb
    exact h ((any_fst_iff_mem d a).2 ha)

theorem dictUpdate_nodup_keys {d : PRecord} (hnd : (d.map Prod.fst).Nodup)
    (us : List (String × Option Val)) :
    ((dictUpdate d us).map Prod.fst).Nodup := by
  induction us generalizing d with
  | nil => exact hnd
  | cons u us ih => exact ih (dictSet_nodup_keys hnd u.1 u.2)

theorem any_dictSet_of_any {d : PRecord} {k' : String}
    (h : d.any (fun e => e.1 == k') = true) (k : String) (v : Option Val) :
    (dictSet d k v).any (fun e => e.1 == k') = true := by
  rw [any_fst_iff_mem] at h ⊢
  rcases dictSet_map_fst d k v with heq | heq <;> rw [heq]
  · exact h
  · exact List.mem_append_left _ h

theorem dictUpdate_map_fst_of_all_mem {d : PRecord}
    {us : List (String × Option Val)}
    (h : ∀ u ∈ us, d.any (fun e => e.1 == u.1) = true) :
    (dictUpdate d us).map Prod.fst = d.map Prod.fst := by
  induction us generalizing d with
  | nil => rfl
  | cons u us ih =>
    have h1 : d.any (fun e => e.1 == u.1) = true := h u (List.mem_cons_self u us)
    have h2 : ∀ u' ∈ us, (dictSet d u.1 u.2).any (fun e => e.1 == u'.1) = true :=
      fun u' hu' => any_dictSet_of_any (h u' (List.mem_cons_of_mem u hu')) u.1 u.2
    calc (dictUpdate (dictSet d u.1 u.2) us).map Prod.fst
        = (dictSet d u.1 u.2).map Prod.fst := ih h2
      _ = d.map Prod.fst := dictSet_map_fst_of_mem h1 u.2

theorem map_if_fst_ne {d : PRecord} {n : String} (hd : n ∉ d.map Prod.fst)
    (v : Option Val) :
    d.map (fun e => if e.1 == n then (n, v) else e) = d := by
  induction d with
  | nil => rfl
  | cons e d ih =>
    simp only [List.map_cons, List.mem_cons] at hd
    push_neg at hd
    have he : (e.1 == n) = false := beq_eq_false_iff_ne.2 (fun h => hd.1 h.symm)
    simp only [List.map_cons, he, Bool.false_eq_true, if_false]
    rw [ih hd.2]

theorem dictSet_head_overwrite {d : PRecord} {n : String}
    (hd : n ∉ d.map Prod.fst) (w v : Option Val) :
    dictSet ((n, w) :: d) n v = (n, v) :: d := by
  unfold dictSet
  rw [if_pos (by simp)]
  simp only [List.map_cons, beq_self_eq_true, if_true]
  rw [map_if_fst_ne hd v]

theorem dictSet_cons_of_ne {d : PRecord} {n k : String} (hne : k ≠ n)
    (hmem : d.any (fun e => e.1 == k) = true) (w v : Option Val) :
    dictSet ((n, w) :: d) k v = (n, w) :: dictSet d k v := by
  unfold dictSet
  have hne' : (n == k) = false := beq_eq_false_iff_ne.2 (fun h => hne h.symm)
  have hany : ((n, w) :: d).any (fun e => e.1 == k) = true := by
    simp only [List.any_cons, hne', Bool.false_or]
    exact hmem
  rw [if_pos hany, if_pos hmem]
  simp only [List.map_cons, hne', Bool.false_eq_true, if_false]

theorem dictUpdate_cons_of {d : PRecord} {n : String} {w : Option Val}
    {us : List (String × Option Val)}
    (h : ∀ u ∈ us, u.1 ≠ n ∧ d.any (fun e => e.1 == u.1) = true) :
    dictUpdate ((n, w) :: d) us = (n, w) :: dictUpdate d us := by
  induction us generalizing d with
  | nil => rfl
  | cons u us ih =>
    have hu := h u (List.mem_cons_self u us)
    have step : dictSet ((n, w) :: d) u.1 u.2 = (n, w) :: dictSet d u.1 u.2 :=
      dictSet_cons_of_ne hu.1 hu.2 w u.2
    show dictUpdate (dictSet ((n, w) :: d) u.1 u.2) us = _
    rw [step]
    exact ih (fun u' hu' =>
      ⟨(h u' (List.mem_cons_of_mem u hu')).1,
       any_dictSet_of_any (h u' (List.mem_cons_of_mem u hu')).2 u.1 u.2⟩)

theorem dictUpdate_overwrite :
    ∀ (names : List String) (vs : List Val) (d : PRecord),
    d.map Prod.fst = names → names.Nodup → names.length ≤ vs.length →
    dictUpdate d ((names.zip vs).map (fun e => (e.1, some e.2))) =
      (names.zip vs).map (fun e => (e.1, some e.2)) := by
  intro names
  induction names with
  | nil =>
    intro vs d hkeys _ _
    rw [List.map_eq_nil_iff.1 hkeys]
    rfl
  | cons n ns ih =>
    intro vs d hkeys hnd hlen
    cases vs with
    | nil => simp at hlen
    | cons v vs =>
      cases d with
      | nil => simp at hkeys
      | cons e d =>
        obtain ⟨e1, e2⟩ := e
        simp only [List.map_cons, List.cons.injEq] at hkeys
        obtain ⟨he1, hkeys'⟩ := hkeys
        subst he1
        simp only [List.nodup_cons] at hnd
        have hni : e1 ∉ d.map Prod.fst := by rw [hkeys']; exact hnd.1
        simp only [List.zip_cons_cons, List.map_cons]
        show dictUpdate (dictSet ((e1, e2) :: d) e1 (some v)) _ = _
        rw [dictSet_head_overwrite hni e2 (some v)]
        have hsub : ∀ u ∈ (ns.zip vs).map (fun e => (e.1, some e.2)),
            u.1 ≠ e1 ∧ d.any (fun e => e.1 == u.1) = true := by
          intro u hu
          obtain ⟨q, hq, rfl⟩ := List.mem_map.1 hu
          have hq1 : q.1 ∈ ns := (List.of_mem_zip hq).1
          constructor
          · exact fun h => hnd.1 (h ▸ hq1)
          · exact (any_fst_iff_mem d q.1).2 (by rw [hkeys']; exact hq1)
        rw [dictUpdate_cons_of hsub]
        simp only [List.length_cons, Nat.add_le_add_iff_right] at hlen
        rw [ih vs d hkeys' hnd.2 hlen]

theorem filterMap_some_map_fst {d : PRecord} (h : ∀ e ∈ d, e.2.isSome = true) :
    (d.filterMap (fun e => e.2.map (fun v => (e.1, v)))).map Prod.fst =
      d.map Prod.fst := by
  induction d with
  | nil => rfl
  | cons e d ih =>
    obtain ⟨n, w⟩ := e
    have he := h (n, w) (List.mem_cons_self _ _)
    obtain ⟨v, hv⟩ := Option.isSome_iff_exists.1 he
    simp only at hv
    subst hv
    have hstep : List.filterMap (fun e => Option.map (fun u => (e.1, u)) e.2)
        ((n, some v) :: d)
        = (n, v) :: List.filterMap (fun e => Option.map (fun u => (e.1, u)) e.2) d := rfl
    rw [hstep, List.map_cons, List.map_cons]
    rw [ih (fun e' he' => h e' (List.mem_cons_of_mem _ he'))]

/-! ### Chain execution lemmas -/

theorem runChain_bind_error {σ : Type} {spec : ArgSpec} {fname : String}
    {args : List Val} {kwargs : Record} {e : BindError}
    (h : build_call spec fname args kwargs = .error e)
    (layers : List Layer) (body : Record → σ → σ × Val) (s : σ) :
    runChain spec fname layers body args kwargs s = ([], s, .error (.bind e)) := by
  cases layers with
  | nil => simp only [runChain, h]
  | cons l rest => cases l <;> simp only [runChain, h]

theorem runChain_pre_prefix_violation {σ : Type} {spec : ArgSpec}
    {fname : String} {args : List Val} {kwargs : Record} {r : Record}
    (hb : build_call spec fname args kwargs = .ok r)
    (A : List (String × (Record → Bool))) {dk : String} {pk : Record → Bool}
    (B : List Layer) (body : Record → σ → σ × Val) (s : σ)
    (hA : ∀ q ∈ A, q.2 r = true) (hk : pk r = false) :
    runChain spec fname (A.map mkPre ++ Layer.pre dk pk :: B) body args kwargs s
      = (A.map (fun q => TraceEntry.pred q.1) ++ [TraceEntry.pred dk], s,
         .error (.violation dk)) := by
  induction A with
  | nil => simp [runChain, hb, hk]
  | cons q A ih =>
    have hq : q.2 r = true := hA q (List.mem_cons_self q A)
    have hA' : ∀ q' ∈ A, q'.2 r = true :=
      fun q' hq' => hA q' (List.mem_cons_of_mem q hq')
    simp only [List.map_cons, List.cons_append, mkPre, runChain, hb, hq, if_true]
    simp only [List.append_eq]
    rw [ih hA']

/-- The evaluation trace of a successful call through a chain: each
precondition fires on the way in, the body runs, each postcondition fires
on the way out. -/
def successTrace : List Layer → List TraceEntry
  | [] => [.body]
  | .pre d _ :: rest => .pred d :: successTrace rest
  | .post d _ :: rest => successTrace rest ++ [.pred d]
  | .xf l _ :: rest => .xform l :: successTrace rest

theorem runChain_ok_trace {σ : Type} {spec : ArgSpec} {fname : String} :
    ∀ (L : List Layer) (body : Record → σ → σ × Val) (args : List Val)
      (kwargs : Record) (s : σ) (tr : List TraceEntry) (s' : σ) (v : Val),
    runChain spec fname L body args kwargs s = (tr, s', .ok v) →
    tr = successTrace L := by
  intro L
  induction L with
  | nil =>
    intro body args kwargs s tr s' v h
    cases hb : build_call spec fname args kwargs with
    | error e => rw [runChain_bind_error hb] at h; simp at h
    | ok r =>
      simp only [runChain, hb, Prod.mk.injEq] at h
      exact h.1.symm
  | cons l rest ih =>
    cases l with
    | pre d p =>
      intro body args kwargs s tr s' v h
      cases hb : build_call spec fname args kwargs with
      | error e => rw [runChain_bind_error hb] at h; simp at h
      | ok r =>
        simp only [runChain, hb] at h
        cases hp : p r
        · rw [hp] at h
          simp at h
        · rw [hp] at h
          simp only [if_true] at h
          rcases hq : runChain spec fname rest body args kwargs s with ⟨tr1, s1, res1⟩
          rw [hq] at h
          simp only [Prod.mk.injEq] at h
          cases res1 with
          | error e => exact absurd h.2.2 (by simp)
          | ok v1 =>
            rw [successTrace, ← ih body args kwargs s tr1 s1 v1 hq]
            exact h.1.symm
    | post d p =>
      intro body args kwargs s tr s' v h
      cases hb : build_call spec fname args kwargs with
      | error e => rw [runChain_bind_error hb] at h; simp at h
      | ok r =>
        simp only [runChain, hb] at h
        rcases hq : runChain spec fname rest body args kwargs s with ⟨tr1, s1, res1⟩
        rw [hq] at h
        cases res1 with
        | error e => simp at h
        | ok v1 =>
          simp only at h
          cases hp : p r v1
          · rw [hp] at h
            simp at h
          · rw [hp] at h
            simp only [if_true, Prod.mk.injEq] at h
            rw [successTrace, ← ih body args kwargs s tr1 s1 v1 hq]
            exact h.1.symm
    | xf lbl t =>
      intro body args kwargs s tr s' v h
      cases hb : build_call spec fname args kwargs with
      | error e => rw [runChain_bind_error hb] at h; simp at h
      | ok r =>
        simp only [runChain, hb] at h
        rcases hq : runChain spec fname rest body [] (t r) s with ⟨tr1, s1, res1⟩
        rw [hq] at h
        simp only [Prod.mk.injEq] at h
        cases res1 with
        | error e => exact absurd h.2.2 (by simp)
        | ok v1 =>
          rw [successTrace, ← ih body [] (t r) s tr1 s1 v1 hq]
          exact h.1.symm

theorem runChain_pres_ok {σ : Type} {spec : ArgSpec} {fname : String}
    {args : List Val} {kwargs : Record} {r : Record}
    (hb : build_call spec fname args kwargs = .ok r)
    (pres : List (String × (Record → Bool))) (body : Record → σ → σ × Val)
    {s s' : σ} {v : Val}
    (hall : ∀ q ∈ pres, q.2 r = true) (hbody : body r s = (s', v)) :
    runChain spec fname (pres.map mkPre) body args kwargs s
      = (pres.map (fun q => TraceEntry.pred q.1) ++ [TraceEntry.body], s',
         .ok v) := by
  induction pres with
  | nil => simp [runChain, hb, hbody]
  | cons q pres ih =>
    have hq : q.2 r = true := hall q (List.mem_cons_self q pres)
    have hall' : ∀ q' ∈ pres, q'.2 r = true :=
      fun q' hq' => hall q' (List.mem_cons_of_mem q hq')
    simp only [List.map_cons, mkPre, runChain, hb, hq, if_true]
    rw [ih hall']
    simp

/-- How many transform layers labelled `lbl` a chain contains. -/
def countXf (lbl : String) : List Layer → Nat
  | [] => 0
  | .xf l _ :: rest => (if l == lbl then 1 else 0) + countXf lbl rest
  | .pre _ _ :: rest => countXf lbl rest
  | .post _ _ :: rest => countXf lbl rest

theorem runChain_xform_count_le {σ : Type} {spec : ArgSpec} {fname : String}
    (lbl : String) :
    ∀ (L : List Layer) (body : Record → σ → σ × Val) (args : List Val)
      (kwargs : Record) (s : σ) (tr : List TraceEntry) (s2 : σ)
      (res : Except CError Val),
    runChain spec fname L body args kwargs s = (tr, s2, res) →
    tr.count (TraceEntry.xform lbl) ≤ countXf lbl L := by
  intro L
  induction L with
  | nil =>
    intro body args kwargs s tr s2 res h
    cases hb : build_call spec fname args kwargs with
    | error e =>
      rw [runChain_bind_error hb] at h
      simp only [Prod.mk.injEq] at h
      rw [← h.1]
      simp [countXf]
    | ok r =>
      simp only [runChain, hb, Prod.mk.injEq] at h
      rw [← h.1]
      simp [countXf]
  | cons l rest ih =>
    cases l with
    | pre d p =>
      intro body args kwargs s tr s2 res h
      cases hb : build_call spec fname args kwargs with
      | error e =>
        rw [runChain_bind_error hb] at h
        simp only [Prod.mk.injEq] at h
        rw [← h.1]
        simp [countXf]
      | ok r =>
        simp only [runChain, hb] at h
        cases hp : p r
        · rw [hp] at h
          simp only [Bool.false_eq_true, if_false, Prod.mk.injEq] at h
          rw [← h.1]
          simp [countXf]
        · rw [hp] at h
          simp only [if_true] at h
          rcases hq : runChain spec fname rest body args kwargs s with ⟨tr1, s1, res1⟩
          rw [hq] at h
          simp only [Prod.mk.injEq] at h
          rw [← h.1]
          have hle := ih body args kwargs s tr1 s1 res1 hq
          simp only [countXf, List.count_cons]
          simpa using hle
    | post d p =>
      intro body args kwargs s tr s2 res h
      cases hb : build_call spec fname args kwargs with
      | error e =>
        rw [runChain_bind_error hb] at h
        simp only [Prod.mk.injEq] at h
        rw [← h.1]
        simp [countXf]
      | ok r =>
        simp only [runChain, hb] at h
        rcases hq : runChain spec fname rest body args kwargs s with ⟨tr1, s1, res1⟩
        rw [hq] at h
        have hle := ih body args kwargs s tr1 s1 res1 hq
        cases res1 with
        | error e =>
          simp only [Prod.mk.injEq] at h
          rw [← h.1]
          simpa [countXf] using hle
        | ok v1 =>
          simp only at h
          cases hp : p r v1 <;> rw [hp] at h <;>
            simp only [Bool.false_eq_true, if_false, if_true, Prod.mk.injEq] at h <;>
            rw [← h.1] <;>
            simpa [countXf, List.count_append] using hle
    | xf l t =>
      intro body args kwargs s tr s2 res h
      cases hb : build_call spec fname args kwargs with
      | error e =>
        rw [runChain_bind_error hb] at h
        simp only [Prod.mk.injEq] at h
        rw [← h.1]
        simp [countXf]
      | ok r =>
        simp only [runChain, hb, Prod.mk.injEq] at h
        rcases hq : runChain spec fname rest body [] (t r) s with ⟨tr1, s1, res1⟩
        rw [hq] at h
        simp only at h
        rw [← h.1]
        have hle := ih body [] (t r) s tr1 s1 res1 hq
        simp only [countXf, List.count_cons]
        by_cases hll : l = lbl
        · subst hll
          simp only [beq_self_eq_true, if_true]
          omega
        · simp only [beq_iff_eq, TraceEntry.xform.injEq, hll, if_false]
          omega

/-! ### Invariant-method execution lemmas -/

theorem runIMethod_prefix_error {σ : Type} (A : List (ICond σ))
    {rest : List (ICond σ)} {body : σ → σ × Val} {s s2 : σ}
    {tr : List TraceEntry} {e : CError}
    (hA : ∀ c ∈ A, c.isPre = true ∧ c.pred s = true)
    (h : runIMethod rest body s = (tr, s2, .error e)) :
    runIMethod (A ++ rest) body s
      = (A.map (fun c => TraceEntry.pred c.desc) ++ tr, s2, .error e) := by
  induction A with
  | nil => simpa using h
  | cons c A ih =>
    have hc := hA c (List.mem_cons_self c A)
    have hA' : ∀ c' ∈ A, c'.isPre = true ∧ c'.pred s = true :=
      fun c' hc' => hA c' (List.mem_cons_of_mem c hc')
    simp only [List.cons_append, runIMethod, hc.1, hc.2, Bool.not_true,
      Bool.and_false, Bool.false_eq_true, if_false]
    simp only [List.append_eq]
    rw [ih hA']
    simp

theorem runIMethod_all_pass {σ : Type} (B : List (ICond σ))
    {body : σ → σ × Val} {s s' : σ} {v : Val}
    (hB : ∀ c ∈ B, c.isPre = true ∧ c.pred s = true)
    (hbody : body s = (s', v)) (hpost : ∀ c ∈ B, c.pred s' = true) :
    runIMethod B body s
      = (B.map (fun c => TraceEntry.pred c.desc) ++ [TraceEntry.body]
          ++ B.reverse.map (fun c => TraceEntry.pred c.desc), s', .ok v) := by
  induction B with
  | nil => simp [runIMethod, hbody]
  | cons c B ih =>
    have hc := hB c (List.mem_cons_self c B)
    have hcp := hpost c (List.mem_cons_self c B)
    have hB' : ∀ c' ∈ B, c'.isPre = true ∧ c'.pred s = true :=
      fun c' hc' => hB c' (List.mem_cons_of_mem c hc')
    have hpost' : ∀ c' ∈ B, c'.pred s' = true :=
      fun c' hc' => hpost c' (List.mem_cons_of_mem c hc')
    simp only [runIMethod, hc.1, hc.2, Bool.not_true, Bool.and_false,
      Bool.false_eq_true, if_false]
    rw [ih hB' hpost']
    simp only [hcp, if_true]
    simp [List.reverse_cons]

theorem deriveInvariant_map_fst {σ : Type} (d : String) (p : σ → Bool)
    (table : List (String × IMethod σ)) :
    (deriveInvariant d p table).map Prod.fst = table.map Prod.fst := by
  unfold deriveInvariant
  rw [List.map_map]
  refine List.map_congr_left (fun nm _ => ?_)
  by_cases h : check nm.1 nm.2.info = true <;> simp [h]

theorem dictUpdate_nil (d : PRecord) : dictUpdate d [] = d := rfl

theorem filterMap_some_id (l : Record) :
    (l.map (fun e => (e.1, some e.2))).filterMap
      (fun e => e.2.map (fun v => (e.1, v))) = l := by
  induction l with
  | nil => rfl
  | cons e l ih =>
    have hstep : ((e :: l).map (fun e => (e.1, some e.2))).filterMap
        (fun e => e.2.map (fun v => (e.1, v)))
        = e :: (l.map (fun e => (e.1, some e.2))).filterMap
            (fun e => e.2.map (fun v => (e.1, v))) := rfl
    rw [hstep, ih]

/-! ### Claim theorems about the argument binder -/

/-- C7: Binding is calling-convention-invariant: for the parameter shape
`(a, b, c="x")`, `build_call` produces the identical record — the same
names mapped to the same values, with the default resolved for `c` —
whether the call supplies `(1, 2)` positionally, `(1, 2, "x")`
positionally, `(a=1, b=2)` by keyword in either textual order, or the
same mapping through `**` expansion. -/
theorem binding_convention_invariant :
    build_call ⟨["a", "b", "c"], none, [Val.str "x"], [], []⟩ "func"
        [Val.int 1, Val.int 2] []
      = .ok [("a", Val.int 1), ("b", Val.int 2), ("c", Val.str "x")] ∧
    build_call ⟨["a", "b", "c"], none, [Val.str "x"], [], []⟩ "func"
        [Val.int 1, Val.int 2, Val.str "x"] []
      = .ok [("a", Val.int 1), ("b", Val.int 2), ("c", Val.str "x")] ∧
    build_call ⟨["a", "b", "c"], none, [Val.str "x"], [], []⟩ "func" []
        [("a", Val.int 1), ("b", Val.int 2)]
      = .ok [("a", Val.int 1), ("b", Val.int 2), ("c", Val.str "x")] ∧
    build_call ⟨["a", "b", "c"], none, [Val.str "x"], [], []⟩ "func" []
        [("b", Val.int 2), ("a", Val.int 1)]
      = .ok [("a", Val.int 1), ("b", Val.int 2), ("c", Val.str "x")] :=
  ⟨rfl, rfl, rfl, rfl⟩

/-- C10: for a callable without a variadic positional parameter, handing
`build_call` more positional arguments than there are named parameters
does not fail: binding succeeds and the record holds exactly the named
parameters (paired with the leading arguments); the surplus positional
values are silently absent. -/
theorem surplus_positional_ignored (spec : ArgSpec) (fname : String)
    (args : List Val) (hv : spec.vargs = none) (hkd : spec.kwonlydefs = [])
    (hnd : spec.named.Nodup) (hlen : spec.named.length ≤ args.length) :
    build_call spec fname args [] = .ok (spec.named.zip args) := by
  have hkeys0 : ((spec.named.map (fun n => ((n : String), (none : Option Val)))).map
      Prod.fst) = spec.named := by
    rw [List.map_map]
    rw [show (Prod.fst ∘ fun n => ((n : String), (none : Option Val))) = id from rfl,
      List.map_id]
  have hactual : buildActual spec args [] =
      (spec.named.zip args).map (fun e => (e.1, some e.2)) := by
    simp only [buildActual, hv, hkd, List.map_nil, dictUpdate_nil]
    have hkeys2 : (dictUpdate (spec.named.map fun n => (n, none))
        ((spec.named.reverse.zip spec.defs.reverse).map
          (fun e => (e.1, some e.2)))).map Prod.fst = spec.named := by
      rw [dictUpdate_map_fst_of_all_mem, hkeys0]
      intro u hu
      obtain ⟨q, hq, rfl⟩ := List.mem_map.1 hu
      have hqm : q.1 ∈ spec.named.reverse := (List.of_mem_zip hq).1
      rw [any_fst_iff_mem, hkeys0]
      exact List.mem_reverse.1 hqm
    exact dictUpdate_overwrite spec.named args _ hkeys2 hnd hlen
  have hfind : (((spec.named.zip args).map
      (fun e => (e.1, some e.2))).find? (fun e => e.2.isNone)) = none := by
    rw [List.find?_eq_none]
    intro x hx
    obtain ⟨q, hq, rfl⟩ := List.mem_map.1 hx
    simp
  simp only [build_call, hactual, hfind]
  rw [filterMap_some_id]

/-- C1 counterexample: a keyword-only parameter declared without a default
and not supplied by the caller does NOT make `build_call` fail: binding
succeeds with the parameter silently absent from the record (here the
record is empty), a stacked precondition is evaluated against that partial
record, and the wrapped body runs — contradicting the claim that the
binder raises a MissingArgument error for missing keyword-only
parameters. -/
theorem kwonly_missing_silently_ok :
    build_call ⟨[], none, [], ["k"], []⟩ "f" [] [] = .ok [] ∧
    runChain ⟨[], none, [], ["k"], []⟩ "f"
        [Layer.pre "sees k" (fun _ => true)]
        (fun _ (s : Int) => (s, Val.int 0)) [] [] 0
      = ([TraceEntry.pred "sees k", TraceEntry.body], 0, .ok (Val.int 0)) :=
  ⟨rfl, rfl⟩

/-- C1 (amended): for a parameter in the positional-or-keyword list that
has no default and receives no positional value, no keyword value, no
keyword-only default, and does not collide with the variadic name, the
binder fails with a `TypeError` naming the callable and an unresolved
parameter, and any contracted call built on this binding aborts before any
condition predicate or the body runs, leaving the state untouched.
(Required keyword-only parameters, by contrast, are silently absent:
see the counterexample.) -/
theorem missing_required_named_argument (spec : ArgSpec) (fname : String)
    (args : List Val) (kwargs : Record) (n : String)
    (hn : n ∈ spec.named)
    (hkd : n ∉ spec.kwonlydefs.map Prod.fst)
    (hdef : n ∉ (spec.named.reverse.zip spec.defs.reverse).map Prod.fst)
    (hpos : n ∉ (spec.named.zip args).map Prod.fst)
    (hva : ∀ w, spec.vargs = some w → w ≠ n)
    (hkw : n ∉ kwargs.map Prod.fst) :
    ∃ n', ((n', none) ∈ buildActual spec args kwargs) ∧
      build_call spec fname args kwargs = .error (.missingArg fname n') ∧
      ∀ (σ : Type) (layers : List Layer) (body : Record → σ → σ × Val)
        (s : σ),
        runChain spec fname layers body args kwargs s
          = ([], s, .error (.bind (.missingArg fname n'))) := by
  have hnotin : ∀ (l : List (String × Val)), n ∉ l.map Prod.fst →
      n ∉ (l.map (fun e => (e.1, some e.2))).map Prod.fst := by
    intro l hl hcon
    obtain ⟨q, hq, h1⟩ := List.mem_map.1 hcon
    obtain ⟨q', hq', rfl⟩ := List.mem_map.1 hq
    have h1' : q'.1 = n := h1
    exact hl (h1' ▸ List.mem_map_of_mem Prod.fst hq')
  have hmem : (n, (none : Option Val)) ∈ buildActual spec args kwargs := by
    simp only [buildActual]
    have h0 : (n, (none : Option Val)) ∈ spec.named.map (fun n => (n, none)) :=
      List.mem_map.2 ⟨n, hn, rfl⟩
    have h1 := dictUpdate_mem_of_notMem h0
      (spec.kwonlydefs.map (fun e => (e.1, some e.2))) (hnotin _ hkd)
    have h2 := dictUpdate_mem_of_notMem h1
      ((spec.named.reverse.zip spec.defs.reverse).map (fun e => (e.1, some e.2)))
      (hnotin _ hdef)
    have h3 := dictUpdate_mem_of_notMem h2
      ((spec.named.zip args).map (fun e => (e.1, some e.2)))
      (hnotin _ hpos)
    cases hv : spec.vargs with
    | none =>
      simp only [hv]
      exact dictUpdate_mem_of_notMem h3
        (kwargs.map (fun e => (e.1, some e.2))) (hnotin _ hkw)
    | some w =>
      simp only [hv]
      exact dictUpdate_mem_of_notMem
        (dictSet_mem_of_ne h3 (fun hc => (hva w hv) hc.symm) _)
        (kwargs.map (fun e => (e.1, some e.2))) (hnotin _ hkw)
  have hsome : ((buildActual spec args kwargs).find?
      (fun e => e.2.isNone)).isSome :=
    List.find?_isSome.2 ⟨(n, none), hmem, rfl⟩
  obtain ⟨e, he⟩ := Option.isSome_iff_exists.1 hsome
  have hpe := List.find?_some he
  simp only at hpe
  have hme : e ∈ buildActual spec args kwargs := List.mem_of_find?_eq_some he
  have he2 : e.2 = none := Option.isNone_iff_eq_none.1 hpe
  have hcall : build_call spec fname args kwargs
      = .error (.missingArg fname e.1) := by
    simp only [build_call, he]
  refine ⟨e.1, ?_, hcall, ?_⟩
  · have : ((e.1, e.2) : String × Option Val) = e := rfl
    rw [← he2, this]
    exact hme
  · intro σ layers body s
    exact runChain_bind_error hcall layers body s

/-- Witness for the amended C1 theorem: a two-required-parameter callable
called with a single positional argument. -/
theorem missing_required_named_argument_witness :
    ∃ n', ((n', none) ∈ buildActual ⟨["a", "b"], none, [], [], []⟩
        [Val.int 1] []) ∧
      build_call ⟨["a", "b"], none, [], [], []⟩ "f" [Val.int 1] []
        = .error (.missingArg "f" n') ∧
      ∀ (σ : Type) (layers : List Layer) (body : Record → σ → σ × Val)
        (s : σ),
        runChain ⟨["a", "b"], none, [], [], []⟩ "f" layers body [Val.int 1] [] s
          = ([], s, .error (.bind (.missingArg "f" n'))) :=
  missing_required_named_argument ⟨["a", "b"], none, [], [], []⟩ "f"
    [Val.int 1] [] "b" (by decide) (by simp) (by simp) (by simp)
    (by simp) (by simp)

/-- C6 counterexample: a parameter supplied both positionally and by a
colliding keyword does not make binding fail loudly: `build_call`
succeeds, silently resolving the collision in favor of the keyword
value. -/
theorem collision_not_rejected :
    build_call ⟨["a", "b"], none, [], [], []⟩ "f" [Val.int 1, Val.int 2]
        [("a", Val.int 3)]
      = .ok [("a", Val.int 3), ("b", Val.int 2)] := rfl

/-- C6 (amended): keyword arguments are overlaid last and always win: if
the caller supplies `(k, v)` among the keyword arguments, then whenever
binding succeeds the produced record maps `k` to `v` (the record's keys
are duplicate-free) — in particular a positional/keyword collision is
silently resolved in favor of the keyword value rather than rejected. -/
theorem keyword_overlay_wins (spec : ArgSpec) (fname : String)
    (args : List Val) (kwargs : Record) (k : String) (v : Val)
    (hnd : spec.named.Nodup) (hknd : (kwargs.map Prod.fst).Nodup)
    (hkv : (k, v) ∈ kwargs) :
    ∀ r, build_call spec fname args kwargs = .ok r →
      (k, v) ∈ r ∧ (r.map Prod.fst).Nodup := by
  have hmem : (k, some v) ∈ buildActual spec args kwargs := by
    simp only [buildActual]
    refine dictUpdate_mem_of_mem_nodup (List.mem_map.2 ⟨(k, v), hkv, rfl⟩) ?_
    rw [List.map_map]
    simpa using hknd
  have hnodup : ((buildActual spec args kwargs).map Prod.fst).Nodup := by
    simp only [buildActual]
    have h0 : ((spec.named.map (fun n => ((n : String), (none : Option Val)))).map
        Prod.fst).Nodup := by
      rw [List.map_map,
        show (Prod.fst ∘ fun n => ((n : String), (none : Option Val))) = id from rfl,
        List.map_id]
      exact hnd
    refine dictUpdate_nodup_keys ?_ _
    cases hv : spec.vargs with
    | none => exact dictUpdate_nodup_keys (dictUpdate_nodup_keys
        (dictUpdate_nodup_keys h0 _) _) _
    | some w => exact dictSet_nodup_keys (dictUpdate_nodup_keys
        (dictUpdate_nodup_keys (dictUpdate_nodup_keys h0 _) _) _) w _
  intro r hr
  simp only [build_call] at hr
  cases hfind : (buildActual spec args kwargs).find? (fun e => e.2.isNone) with
  | some e =>
    rw [hfind] at hr
    cases hr
  | none =>
    rw [hfind] at hr
    simp only [Except.ok.injEq] at hr
    subst hr
    have hall : ∀ e ∈ buildActual spec args kwargs, e.2.isSome = true := by
      intro e hene
      rw [Option.isSome_iff_ne_none]
      simpa using List.find?_eq_none.1 hfind e hene
    constructor
    · exact List.mem_filterMap.2 ⟨(k, some v), hmem, rfl⟩
    · rw [filterMap_some_map_fst hall]
      exact hnodup

/-- Witness for the amended C6 theorem, at the collision input. -/
theorem keyword_overlay_wins_witness :
    (("a", Val.int 3) ∈ ([("a", Val.int 3), ("b", Val.int 2)] : Record)) ∧
    (([("a", Val.int 3), ("b", Val.int 2)] : Record).map Prod.fst).Nodup :=
  keyword_overlay_wins ⟨["a", "b"], none, [], [], []⟩ "f"
    [Val.int 1, Val.int 2] [("a", Val.int 3)] "a" (Val.int 3)
    (by decide) (by decide) (List.mem_cons_self _ _)
    [("a", Val.int 3), ("b", Val.int 2)] rfl

/-- Witness for the C10 theorem: shape `(a, b)` called with three
positional arguments. -/
theorem surplus_positional_ignored_witness :
    build_call ⟨["a", "b"], none, [], [], []⟩ "f"
        [Val.int 1, Val.int 2, Val.int 3] []
      = .ok [("a", Val.int 1), ("b", Val.int 2)] :=
  surplus_positional_ignored ⟨["a", "b"], none, [], [], []⟩ "f"
    [Val.int 1, Val.int 2, Val.int 3] rfl rfl (by decide) (by decide)

/-! ### Claim theorems about the condition wrapper chain -/

theorem runChain_nil_ok {σ : Type} {spec : ArgSpec} {fname : String}
    {body : Record → σ → σ × Val} {args : List Val} {kwargs : Record}
    {s : σ} {r : Record} {s' : σ} {v : Val}
    (hb : build_call spec fname args kwargs = .ok r)
    (hbody : body r s = (s', v)) :
    runChain spec fname [] body args kwargs s
      = ([TraceEntry.body], s', .ok v) := by
  simp [runChain, hb, hbody]

theorem runChain_single_post {σ : Type} {spec : ArgSpec} {fname : String}
    {d : String} {p : Record → Val → Bool} {body : Record → σ → σ × Val}
    {args : List Val} {kwargs : Record} {s : σ} {r : Record} {s' : σ}
    {v : Val}
    (hb : build_call spec fname args kwargs = .ok r)
    (hbody : body r s = (s', v)) (hp : p r v = false) :
    runChain spec fname [Layer.post d p] body args kwargs s
      = ([TraceEntry.body, TraceEntry.pred d], s', .error (.violation d)) := by
  simp only [runChain, hb, hbody, hp, Bool.false_eq_true, if_false]
  rfl

/-- C2: stacked preconditions execute outermost-first (first-declared
first): with preconditions `A` stacked outside a failing `k`-th one, if the
bound record satisfies every predicate in `A` but violates the `k`-th, the
call fails with exactly the `k`-th description, the trace holds only `A`'s
predicates followed by the `k`-th (so no later layer and not the body is
ever evaluated) and the state is untouched; moreover on any successful
call the trace equals `successTrace`: preconditions fire outside-in and
postconditions inside-out. -/
theorem stacked_preconditions_outside_in :
    (∀ (σ : Type) (spec : ArgSpec) (fname : String)
       (A : List (String × (Record → Bool))) (dk : String)
       (pk : Record → Bool) (B : List Layer)
       (body : Record → σ → σ × Val) (args : List Val) (kwargs : Record)
       (s : σ) (r : Record),
       build_call spec fname args kwargs = .ok r →
       (∀ q ∈ A, q.2 r = true) → pk r = false →
       runChain spec fname (A.map mkPre ++ Layer.pre dk pk :: B) body args
           kwargs s
         = (A.map (fun q => TraceEntry.pred q.1) ++ [TraceEntry.pred dk], s,
            .error (.violation dk)) ∧
       TraceEntry.body ∉
         A.map (fun q => TraceEntry.pred q.1) ++ [TraceEntry.pred dk])
  ∧ (∀ (σ : Type) (spec : ArgSpec) (fname : String) (L : List Layer)
       (body : Record → σ → σ × Val) (args : List Val) (kwargs : Record)
       (s : σ) (tr : List TraceEntry) (s' : σ) (v : Val),
       runChain spec fname L body args kwargs s = (tr, s', .ok v) →
       tr = successTrace L) := by
  constructor
  · intro σ spec fname A dk pk B body args kwargs s r hb hA hk
    refine ⟨runChain_pre_prefix_violation hb A B body s hA hk, ?_⟩
    intro hcon
    rcases List.mem_append.1 hcon with hcon | hcon
    · obtain ⟨q, _, hq⟩ := List.mem_map.1 hcon
      cases hq
    · rw [List.mem_singleton] at hcon
      cases hcon
  · intro σ spec fname L body args kwargs s tr s' v h
    exact runChain_ok_trace L body args kwargs s tr s' v h

/-- Witness for C2: three stacked preconditions where the second fails:
the call reports the second description, the third precondition and the
body never run. -/
theorem stacked_preconditions_outside_in_witness :
    runChain ⟨["i"], none, [], [], []⟩ "f"
        [Layer.pre "d1" (fun _ => true), Layer.pre "d2" (fun _ => false),
         Layer.pre "d3" (fun _ => true)]
        (fun _ (s : Int) => (s, Val.int 0)) [Val.int 1] [] 0
      = ([TraceEntry.pred "d1", TraceEntry.pred "d2"], 0,
         .error (.violation "d2")) :=
  (stacked_preconditions_outside_in.1 Int ⟨["i"], none, [], [], []⟩ "f"
    [("d1", fun _ => true)] "d2" (fun _ => false)
    [Layer.pre "d3" (fun _ => true)] (fun _ s => (s, Val.int 0))
    [Val.int 1] [] 0 [("i", Val.int 1)] rfl
    (by intro q hq; rw [List.mem_singleton] at hq; subst hq; rfl) rfl).1

/-- C3: when the body completes normally but the postcondition predicate
on (record, result) is false, the call fails with the condition's
description verbatim, the result is never returned, and the state the body
left behind is kept — side effects are not rolled back. -/
theorem postcondition_failure_no_result {σ : Type} (spec : ArgSpec)
    (fname : String) (d : String) (p : Record → Val → Bool)
    (body : Record → σ → σ × Val) (args : List Val) (kwargs : Record)
    (s : σ) (r : Record) (s' : σ) (v : Val)
    (hb : build_call spec fname args kwargs = .ok r)
    (hbody : body r s = (s', v)) (hp : p r v = false) :
    runChain spec fname [Layer.post d p] body args kwargs s
      = ([TraceEntry.body, TraceEntry.pred d], s', .error (.violation d)) :=
  runChain_single_post hb hbody hp

/-- Witness for C3: the body increments the state and returns 9; the
postcondition rejects it; the incremented state persists. -/
theorem postcondition_failure_no_result_witness :
    runChain ⟨["i"], none, [], [], []⟩ "f"
        [Layer.post "result fits" (fun _ _ => false)]
        (fun _ (s : Int) => (s + 1, Val.int 9)) [Val.int 1] [] 0
      = ([TraceEntry.body, TraceEntry.pred "result fits"], 1,
         .error (.violation "result fits")) :=
  postcondition_failure_no_result ⟨["i"], none, [], [], []⟩ "f"
    "result fits" (fun _ _ => false) (fun _ s => (s + 1, Val.int 9))
    [Val.int 1] [] 0 [("i", Val.int 1)] 1 (Val.int 9) rfl rfl rfl

/-- C9: when contracts are disabled before declaration, `require`,
`ensure`, `transform` and `invariant` all return their input callable or
type unchanged; and a call whose postcondition would fail under enabled
mode instead returns the body's value normally, with exactly the same
post-violation state and no error. -/
theorem disabled_mode_identity :
    (∀ (σ : Type) (d : String) (p : Record → Bool) (f : Decorated σ),
       require false d p f = f)
  ∧ (∀ (σ : Type) (d : String) (p : Record → Val → Bool) (f : Decorated σ),
       ensure false d p f = f)
  ∧ (∀ (σ : Type) (lbl : String) (t : Record → Record) (f : Decorated σ),
       transform false lbl t f = f)
  ∧ (∀ (σ : Type) (d : String) (p : σ → Bool)
       (table : List (String × IMethod σ)), invariant false d p table = table)
  ∧ (∀ (σ : Type) (spec : ArgSpec) (fname : String) (d : String)
       (p : Record → Val → Bool) (body : Record → σ → σ × Val)
       (args : List Val) (kwargs : Record) (s : σ) (r : Record) (s' : σ)
       (v : Val),
       build_call spec fname args kwargs = .ok r → body r s = (s', v) →
       p r v = false →
       runDecorated (ensure true d p ⟨[], body⟩) spec fname args kwargs s
         = ([TraceEntry.body, TraceEntry.pred d], s', .error (.violation d))
       ∧ runDecorated (ensure false d p ⟨[], body⟩) spec fname args kwargs s
         = ([TraceEntry.body], s', .ok v)) := by
  refine ⟨fun σ d p f => rfl, fun σ d p f => rfl, fun σ lbl t f => rfl,
    fun σ d p table => rfl, ?_⟩
  intro σ spec fname d p body args kwargs s r s' v hb hbody hp
  constructor
  · show runChain spec fname [Layer.post d p] body args kwargs s = _
    exact runChain_single_post hb hbody hp
  · show runChain spec fname [] body args kwargs s = _
    exact runChain_nil_ok hb hbody

/-- Witness for C9: the violating postcondition scenario, run in enabled
and in disabled mode: disabled returns normally with the same state. -/
theorem disabled_mode_identity_witness :
    runDecorated (ensure true "result fits" (fun _ _ => false)
        (⟨[], fun _ (s : Int) => (s + 1, Val.int 9)⟩ : Decorated Int))
        ⟨["i"], none, [], [], []⟩ "f" [Val.int 1] [] 0
      = ([TraceEntry.body, TraceEntry.pred "result fits"], 1,
         .error (.violation "result fits")) ∧
    runDecorated (ensure false "result fits" (fun _ _ => false)
        (⟨[], fun _ (s : Int) => (s + 1, Val.int 9)⟩ : Decorated Int))
        ⟨["i"], none, [], [], []⟩ "f" [Val.int 1] [] 0
      = ([TraceEntry.body], 1, .ok (Val.int 9)) :=
  disabled_mode_identity.2.2.2.2 Int ⟨["i"], none, [], [], []⟩ "f"
    "result fits" (fun _ _ => false) (fun _ s => (s + 1, Val.int 9))
    [Val.int 1] [] 0 [("i", Val.int 1)] 1 (Val.int 9) rfl rfl rfl

/-! ### Claim theorems about the transform layer -/

/-- The predicate of the C8 scenarios: the record binds `a` to 5. -/
def wantsFive : Record → Bool := fun r =>
  r.any (fun e => e.1 == "a" &&
    (match e.2 with | Val.int n => n == 5 | _ => false))

/-- C8 counterexample: a precondition declared OUTSIDE the transform
(`@require` above `@transform`) is evaluated against the original argument
record, not the rewritten one: although the predicate holds on the
rewritten record, the call fails with that precondition's violation, the
rewriter is never invoked (no `xform` event in the trace) and the body
never runs — contradicting the claim that for every decorated callable the
rewrite is applied before the first precondition in the chain sees the
record. -/
theorem outer_precondition_sees_original_record :
    wantsFive [("a", Val.int 5)] = true ∧
    runChain ⟨["a"], none, [], [], []⟩ "f"
        [Layer.pre "a is five" wantsFive,
         Layer.xf "materialize" (fun _ => [("a", Val.int 5)])]
        (fun _ (s : Int) => (s, Val.int 0)) [Val.int 1] [] 0
      = ([TraceEntry.pred "a is five"], 0, .error (.violation "a is five")) :=
  ⟨rfl, rfl⟩

/-- C8 (amended): when the transform is the outermost decorator (the usage
the module documents), the rewriter fires first, every precondition inside
it is evaluated against the rebinding of the rewritten record, and the
body is invoked on the rewritten record — the originally supplied values
are not used again; and in any chain the rewriter of a transform layer
runs at most as often as the layer occurs, hence at most once per call
for a singly-applied transform. Preconditions stacked outside the
transform, however, see the original record (see the counterexample). -/
theorem transform_outermost_rewrites_before_inner_preconditions :
    (∀ (σ : Type) (spec : ArgSpec) (fname : String) (lbl : String)
       (t : Record → Record) (pres : List (String × (Record → Bool)))
       (body : Record → σ → σ × Val) (args : List Val) (kwargs : Record)
       (s s' : σ) (r r2 : Record) (v : Val),
       build_call spec fname args kwargs = .ok r →
       build_call spec fname [] (t r) = .ok r2 →
       (∀ q ∈ pres, q.2 r2 = true) → body r2 s = (s', v) →
       runChain spec fname (Layer.xf lbl t :: pres.map mkPre) body args
           kwargs s
         = (TraceEntry.xform lbl ::
             (pres.map (fun q => TraceEntry.pred q.1) ++ [TraceEntry.body]),
            s', .ok v))
  ∧ (∀ (σ : Type) (spec : ArgSpec) (fname : String) (lbl : String)
       (L : List Layer) (body : Record → σ → σ × Val) (args : List Val)
       (kwargs : Record) (s : σ) (tr : List TraceEntry) (s2 : σ)
       (res : Except CError Val),
       runChain spec fname L body args kwargs s = (tr, s2, res) →
       countXf lbl L = 1 → tr.count (TraceEntry.xform lbl) ≤ 1) := by
  constructor
  · intro σ spec fname lbl t pres body args kwargs s s' r r2 v hb hb2 hall
      hbody
    simp only [runChain, hb]
    rw [runChain_pres_ok hb2 pres body hall hbody]
  · intro σ spec fname lbl L body args kwargs s tr s2 res h hcount
    have := runChain_xform_count_le lbl L body args kwargs s tr s2 res h
    omega

/-- Witness for the amended C8 theorem: transform outermost, one inner
precondition; the rewriter fires once, the precondition sees the rewritten
record and passes, the body runs on the rewritten record. -/
theorem transform_outermost_rewrites_witness :
    runChain ⟨["a"], none, [], [], []⟩ "f"
        [Layer.xf "materialize" (fun _ => [("a", Val.int 5)]),
         mkPre ("a is five", wantsFive)]
        (fun _ (s : Int) => (s, Val.int 1)) [Val.int 1] [] 0
      = ([TraceEntry.xform "materialize", TraceEntry.pred "a is five",
          TraceEntry.body], 0, .ok (Val.int 1)) ∧
    List.count (TraceEntry.xform "materialize")
        [TraceEntry.xform "materialize", TraceEntry.pred "a is five",
         TraceEntry.body] ≤ 1 := by
  constructor
  · exact transform_outermost_rewrites_before_inner_preconditions.1 Int
      ⟨["a"], none, [], [], []⟩ "f" "materialize"
      (fun _ => [("a", Val.int 5)]) [("a is five", wantsFive)]
      (fun _ s => (s, Val.int 1)) [Val.int 1] [] 0 0
      [("a", Val.int 1)] [("a", Val.int 5)] (Val.int 1) rfl rfl
      (by intro q hq; rw [List.mem_singleton] at hq; subst hq; rfl) rfl
  · exact transform_outermost_rewrites_before_inner_preconditions.2 Int
      ⟨["a"], none, [], [], []⟩ "f" "materialize"
      [Layer.xf "materialize" (fun _ => [("a", Val.int 5)]),
       mkPre ("a is five", wantsFive)]
      (fun _ (s : Int) => (s, Val.int 1)) [Val.int 1] [] 0
      [TraceEntry.xform "materialize", TraceEntry.pred "a is five",
       TraceEntry.body] 0 (.ok (Val.int 1))
      rfl rfl

/-! ### Claim theorems about the invariant propagator -/

/-- C4: an attribute is wrapped with invariant enforcement iff `check`
passes, and `check` passes iff the attribute is a function or method, not
bound to the class itself, and its name is either not dunder-styled or in
the fixed allow-list; the `__init__` wrap carries a skipped pre-check but
a normally-running post-check; an attribute appended to the table after
derivation is found unwrapped and calling it performs no invariant
check. -/
theorem invariant_wrapping_policy :
    (∀ (n : String) (info : MethodInfo),
       check n info = true ↔
         (info.isFuncOrMethod = true ∧ info.boundToClass = false ∧
          (isDunder n = false ∨ n ∈ dunderExceptions)))
  ∧ (∀ (σ : Type) (d : String) (p : σ → Bool)
       (table : List (String × IMethod σ)) (n : String) (m : IMethod σ),
       (n, m) ∈ table →
       (check n m.info = true →
          (n, wrapInvariant d p n m) ∈ deriveInvariant d p table) ∧
       (check n m.info = false → (n, m) ∈ deriveInvariant d p table))
  ∧ (∀ (σ : Type) (d : String) (p : σ → Bool) (m : IMethod σ),
       (wrapInvariant d p "__init__" m).layers = ⟨d, p, false⟩ :: m.layers ∧
       ∀ n, n ≠ "__init__" →
         (wrapInvariant d p n m).layers = ⟨d, p, true⟩ :: m.layers)
  ∧ (∀ (σ : Type) (d : String) (p : σ → Bool) (body : σ → σ × Val)
       (s s' : σ) (v : Val),
       body s = (s', v) →
       runIMethod [⟨d, p, false⟩] body s
         = ([TraceEntry.body, TraceEntry.pred d], s',
            if p s' then .ok v else .error (.violation d)))
  ∧ (∀ (σ : Type) (d : String) (p : σ → Bool)
       (table : List (String × IMethod σ)) (n : String) (m : IMethod σ)
       (s : σ),
       n ∉ table.map Prod.fst → m.layers = [] →
       callMethod (deriveInvariant d p table ++ [(n, m)]) n s
         = some ([TraceEntry.body], (m.body s).1, .ok (m.body s).2)) := by
  refine ⟨?_, ?_, ?_, ?_, ?_⟩
  · intro n info
    unfold check
    by_cases h1 : (isDunder n && !(dunderExceptions.contains n)) = true
    · rw [if_pos h1]
      rw [Bool.and_eq_true] at h1
      obtain ⟨hd, hc⟩ := h1
      rw [Bool.not_eq_true'] at hc
      have hnm : n ∉ dunderExceptions := by
        intro hm
        rw [(by simpa using hm : dunderExceptions.contains n = true)] at hc
        cases hc
      simp [hd, hnm]
    · rw [if_neg h1]
      have hdisj : isDunder n = false ∨ n ∈ dunderExceptions := by
        by_cases hd : isDunder n = true
        · right
          by_contra hm
          have hc : dunderExceptions.contains n = false := by
            by_contra hcc
            rw [Bool.not_eq_false] at hcc
            exact hm (by simpa using hcc)
          exact h1 (by rw [hd, hc]; rfl)
        · exact Or.inl (Bool.eq_false_iff.2 hd)
      by_cases h2 : info.isFuncOrMethod = true
      · by_cases h3 : info.boundToClass = true
        · simp [h2, h3]
        · simp [h2, Bool.eq_false_iff.2 h3, hdisj]
      · simp [Bool.eq_false_iff.2 h2]
  · intro σ d p table n m hmem
    constructor
    · intro hchk
      have := List.mem_map_of_mem
        (fun nm : String × IMethod σ =>
          if check nm.1 nm.2.info then (nm.1, wrapInvariant d p nm.1 nm.2)
          else nm) hmem
      simp only at this
      rw [if_pos hchk] at this
      exact this
    · intro hchk
      have := List.mem_map_of_mem
        (fun nm : String × IMethod σ =>
          if check nm.1 nm.2.info then (nm.1, wrapInvariant d p nm.1 nm.2)
          else nm) hmem
      simp only at this
      rw [if_neg (by rw [hchk]; exact Bool.false_ne_true)] at this
      exact this
  · intro σ d p m
    constructor
    · rfl
    · intro n hn
      unfold wrapInvariant
      rw [show (n != "__init__") = true from bne_iff_ne.2 hn]
  · intro σ d p body s s' v hbody
    cases hp : p s' with
    | false => simp [runIMethod, hbody, hp]
    | true => simp [runIMethod, hbody, hp]
  · intro σ d p table n m s hnotin hlayers
    unfold callMethod
    have hfind1 : (deriveInvariant d p table).find? (fun nm => nm.1 == n)
        = none := by
      rw [List.find?_eq_none]
      intro x hx
      have hx1 : x.1 ∈ table.map Prod.fst := by
        rw [← deriveInvariant_map_fst d p table]
        exact List.mem_map_of_mem Prod.fst hx
      intro hcon
      rw [beq_iff_eq] at hcon
      exact hnotin (hcon ▸ hx1)
    rw [List.find?_append, hfind1]
    have hfind2 : ([((n : String), m)].find? (fun nm => nm.1 == n))
        = some (n, m) := by simp
    simp [hfind2, hlayers, runIMethod]

/-- Predicate used in the invariant scenarios: the state is below five. -/
def ltFive : Int → Bool := fun s => s < 5

/-- Predicate used in the invariant scenarios: the state is below three. -/
def ltThree : Int → Bool := fun s => s < 3

/-- Predicate used in the invariant scenarios: the state is below ten. -/
def ltTen : Int → Bool := fun s => s < 10

/-- A plain unwrapped method moving the instance state to 7. -/
def bumpToSeven : IMethod Int := ⟨⟨true, false⟩, [], fun _ => (7, Val.int 7)⟩

/-- Witness for C4: a method attached to the table after derivation is
called with no invariant check at all (trace holds only the body event),
and its state change goes through. -/
theorem invariant_wrapping_policy_witness :
    callMethod (deriveInvariant "inv" ltFive [("m", bumpToSeven)]
        ++ [("late", (⟨⟨true, false⟩, [],
              fun s => (s - 5, Val.int 1)⟩ : IMethod Int))]) "late" 3
      = some ([TraceEntry.body], 3 - 5, .ok (Val.int 1)) :=
  invariant_wrapping_policy.2.2.2.2 Int "inv" ltFive [("m", bumpToSeven)]
    "late" ⟨⟨true, false⟩, [], fun s => (s - 5, Val.int 1)⟩ 3
    (by decide) rfl

/-- C5 counterexample: invariants declared in order `d1` (listed first),
`d2` (listed second) on a method that moves the state to 7, where both
predicates fail at 7: the post-invocation boundary evaluates the
conditions inside-out and the reported failure is the SECOND-declared
`d2`, not the first-declared `d1` that evaluation in declaration order
would report; the trace shows the post-boundary evaluated `d2` and stopped
there. -/
theorem invariant_post_boundary_reports_inner :
    ltFive 7 = false ∧ ltThree 7 = false ∧
    callMethod (deriveInvariant "d1" ltFive
        (deriveInvariant "d2" ltThree [("m", bumpToSeven)])) "m" 0
      = some ([TraceEntry.pred "d1", TraceEntry.pred "d2", TraceEntry.body,
               TraceEntry.pred "d2"], 7, .error (.violation "d2")) :=
  ⟨rfl, rfl, rfl⟩

/-- C5 (amended): with multiple invariant conditions wrapped on one method
(layers listed outermost-first, i.e. in declaration order), the
pre-invocation boundary evaluates the conditions in declaration order and
short-circuits at the first failure there, which is the reported failure
with its description and leaves the state untouched; the post-invocation
boundary evaluates the conditions in REVERSE declaration order and
short-circuits at the first failure in that reverse order, which is the
reported failure, with the body's state change kept. -/
theorem invariant_boundary_order :
    (∀ (σ : Type) (A : List (ICond σ)) (dk : String) (pk : σ → Bool)
       (B : List (ICond σ)) (body : σ → σ × Val) (s : σ),
       (∀ c ∈ A, c.isPre = true ∧ c.pred s = true) → pk s = false →
       runIMethod (A ++ ⟨dk, pk, true⟩ :: B) body s
         = (A.map (fun c => TraceEntry.pred c.desc) ++ [TraceEntry.pred dk],
            s, .error (.violation dk)))
  ∧ (∀ (σ : Type) (A : List (ICond σ)) (dk : String) (pk : σ → Bool)
       (B : List (ICond σ)) (body : σ → σ × Val) (s s' : σ) (v : Val),
       (∀ c ∈ A, c.isPre = true ∧ c.pred s = true) → pk s = true →
       (∀ c ∈ B, c.isPre = true ∧ c.pred s = true) → body s = (s', v) →
       (∀ c ∈ B, c.pred s' = true) → pk s' = false →
       runIMethod (A ++ ⟨dk, pk, true⟩ :: B) body s
         = (A.map (fun c => TraceEntry.pred c.desc)
             ++ ([TraceEntry.pred dk]
                 ++ (B.map (fun c => TraceEntry.pred c.desc)
                     ++ [TraceEntry.body]
                     ++ B.reverse.map (fun c => TraceEntry.pred c.desc))
                 ++ [TraceEntry.pred dk]),
            s', .error (.violation dk))) := by
  constructor
  · intro σ A dk pk B body s hA hk
    have hbase : runIMethod (⟨dk, pk, true⟩ :: B) body s
        = ([TraceEntry.pred dk], s, .error (.violation dk)) := by
      simp [runIMethod, hk]
    simpa using runIMethod_prefix_error A hA hbase
  · intro σ A dk pk B body s s' v hA hk1 hB hbody hBpost hk2
    have hinner : runIMethod (⟨dk, pk, true⟩ :: B) body s
        = ([TraceEntry.pred dk]
            ++ (B.map (fun c => TraceEntry.pred c.desc) ++ [TraceEntry.body]
                ++ B.reverse.map (fun c => TraceEntry.pred c.desc))
            ++ [TraceEntry.pred dk], s', .error (.violation dk)) := by
      simp only [runIMethod, hk1, Bool.not_true, Bool.and_false,
        Bool.false_eq_true, if_false]
      rw [runIMethod_all_pass B hB hbody hBpost]
      simp [hk2]
    exact runIMethod_prefix_error A hA hinner

/-- Witness for the amended C5: two invariants where the outer (first-
declared) fails only at the post boundary: the post boundary checks the
inner one first (it passes at 7), then the outer one fails and is
reported. -/
theorem invariant_boundary_order_witness :
    runIMethod [(⟨"d1", ltFive, true⟩ : ICond Int), ⟨"d2", ltTen, true⟩]
        (fun _ => (7, Val.int 7)) 0
      = ([TraceEntry.pred "d1", TraceEntry.pred "d2", TraceEntry.body,
          TraceEntry.pred "d2", TraceEntry.pred "d1"], 7,
         .error (.violation "d1")) := by
  have h := invariant_boundary_order.2 Int [] "d1" ltFive
    [⟨"d2", ltTen, true⟩] (fun _ => (7, Val.int 7)) 0 7 (Val.int 7)
    (by intro c hc; cases hc) rfl
    (by intro c hc; rw [List.mem_singleton] at hc; subst hc; exact ⟨rfl, rfl⟩)
    rfl
    (by intro c hc; rw [List.mem_singleton] at hc; subst hc; rfl) rfl
  simpa using h

end DPContracts
